import Mathlib

/-!
Verification of the discovery-and-selection engine of the `rich-prompt`
repository: the gitignore-style pattern matcher, the filtered directory
walker (`src/infra/file_system.rs`) and the selection tree plus interaction
state machine (`src/core/file_selector.rs`), shallowly embedded in Lean.

Strings handled by the pattern matcher are modelled as `List Char`
(`Str`); tree-node names and stored file paths are plain `String`s.
-/

set_option maxRecDepth 10000

abbrev Str := List Char

/-! ## Generic string helpers (Rust `str` operations, on `List Char`) -/

/-- Rust `str::starts_with` on explicit character lists. -/
def listIsPrefixB : Str → Str → Bool
  | [], _ => true
  | _ :: _, [] => false
  | a :: p, b :: s => a == b && listIsPrefixB p s

/-- Rust `str::ends_with`. -/
def listIsSuffixB (p s : Str) : Bool := listIsPrefixB p.reverse s.reverse

/-- Rust `str::contains` with a string argument (substring search). -/
def strContainsSub (s sub : Str) : Bool :=
  match s with
  | [] => sub.isEmpty
  | _ :: t => listIsPrefixB sub s || strContainsSub t sub

/-- Rust `str::trim_start_matches(c)`: drop every leading occurrence of `c`. -/
def dropLeading (c : Char) (s : Str) : Str := s.dropWhile (· == c)

/-- Rust `str::trim_end_matches(c)`: drop every trailing occurrence of `c`. -/
def dropTrailing (c : Char) (s : Str) : Str := (s.reverse.dropWhile (· == c)).reverse

/-- Rust `str::trim_matches(c)`: drop occurrences of `c` at both ends. -/
def trimBoth (c : Char) (s : Str) : Str := dropTrailing c (dropLeading c s)

/-- Rust `str::split(c)`: split at every occurrence of `c`, keeping empty pieces. -/
def splitChar (c : Char) : Str → List Str
  | [] => [[]]
  | x :: xs =>
      if x == c then [] :: splitChar c xs
      else
        match splitChar c xs with
        | [] => [[x]]
        | h :: t => (x :: h) :: t

/-! ## Selection tree (`src/core/file_selector.rs`)

`TreeNode` is the Rust enum; `FlattenedTree` holds the flattened display
sequence and the cursor (`ListState::selected`). -/

inductive TreeNode where
  | directory (name : String) (children : List TreeNode) (expanded : Bool)
  | file (name : String) (path : String) (selected : Bool)

/-- `TreeNode::new_directory`: fresh directory, no children, expanded. -/
def TreeNode.newDirectory (name : String) : TreeNode := .directory name [] true

/-- `TreeNode::new_file`: fresh file leaf, unselected. -/
def TreeNode.newFile (name path : String) : TreeNode := .file name path false

/-- `TreeNode::is_file`. -/
def TreeNode.isFile : TreeNode → Bool
  | .file _ _ _ => true
  | _ => false

/-- `TreeNode::is_selected` (false on directories). -/
def TreeNode.isSelected : TreeNode → Bool
  | .file _ _ s => s
  | _ => false

/-- `TreeNode::toggle_selected`: flip a file's flag, no-op on a directory. -/
def TreeNode.toggleSelected : TreeNode → TreeNode
  | .file n p s => .file n p (!s)
  | t => t

mutual

/-- `FlattenedTree::flatten_node`: pre-order walk that pushes a
children-stripped copy of each node and descends only into expanded
directories. -/
def flattenNode : TreeNode → Nat → List (TreeNode × Nat)
  | .directory n cs e, d =>
      (TreeNode.directory n [] e, d) :: (if e then flattenList cs (d + 1) else [])
  | .file n p s, d => [(.file n p s, d)]

def flattenList : List TreeNode → Nat → List (TreeNode × Nat)
  | [], _ => []
  | c :: rest, d => flattenNode c d ++ flattenList rest d

end

structure FlattenedTree where
  nodes : List (TreeNode × Nat)
  cursor : Option Nat

/-- `FlattenedTree::from_tree`: flatten from depth 0, cursor at 0 when
non-empty. -/
def FlattenedTree.fromTree (root : TreeNode) : FlattenedTree :=
  let ns := flattenNode root 0
  { nodes := ns, cursor := if ns.isEmpty then none else some 0 }

/-- `FlattenedTree::next`: cursor forward, wrapping at the end. -/
def FlattenedTree.next (ft : FlattenedTree) : FlattenedTree :=
  let i := match ft.cursor with
    | some i => if i ≥ ft.nodes.length - 1 then 0 else i + 1
    | none => 0
  { ft with cursor := some i }

/-- `FlattenedTree::previous`: cursor backward, wrapping at the start. -/
def FlattenedTree.previous (ft : FlattenedTree) : FlattenedTree :=
  let i := match ft.cursor with
    | some i => if i == 0 then ft.nodes.length - 1 else i - 1
    | none => 0
  { ft with cursor := some i }

/-- `FlattenedTree::toggle_selected`: toggle the file under the cursor
inside the flattened sequence (directories untouched). -/
def FlattenedTree.toggleSelected (ft : FlattenedTree) : FlattenedTree :=
  match ft.cursor with
  | some i =>
      match ft.nodes[i]? with
      | some (node, d) =>
          if node.isFile then { ft with nodes := ft.nodes.set i (node.toggleSelected, d) }
          else ft
      | none => ft
  | none => ft

/-- `FlattenedTree::selected_files_count`. -/
def FlattenedTree.selectedFilesCount (ft : FlattenedTree) : Nat :=
  ft.nodes.countP (fun nd => nd.1.isFile && nd.1.isSelected)

/-- `FlattenedTree::total_files_count`. -/
def FlattenedTree.totalFilesCount (ft : FlattenedTree) : Nat :=
  ft.nodes.countP (fun nd => nd.1.isFile)

/-- `FlattenedTree::get_selected_paths`. -/
def FlattenedTree.getSelectedPaths (ft : FlattenedTree) : List String :=
  ft.nodes.filterMap (fun nd =>
    match nd.1 with
    | .file _ p true => some p
    | _ => none)

/-- `FlattenedTree::select_all_files`: set the flag of every file in the
flattened sequence. -/
def FlattenedTree.selectAllFiles (ft : FlattenedTree) : FlattenedTree :=
  { ft with nodes := ft.nodes.map (fun nd =>
      match nd with
      | (.file n p _, d) => (.file n p true, d)
      | other => other) }

/-- `FlattenedTree::deselect_all_files`. -/
def FlattenedTree.deselectAllFiles (ft : FlattenedTree) : FlattenedTree :=
  { ft with nodes := ft.nodes.map (fun nd =>
      match nd with
      | (.file n p _, d) => (.file n p false, d)
      | other => other) }

/-! ## App: tree construction and controller (`src/core/file_selector.rs`) -/

structure App where
  tree : TreeNode
  ft : FlattenedTree

/-- The `children.iter().position(..)` search in `App::add_path_to_tree`:
index of the first `Directory` child named `c` (file children never match). -/
def findDirIdx (cs : List TreeNode) (c : String) : Option Nat :=
  match cs with
  | [] => none
  | (TreeNode.directory nm _ _) :: tl =>
      if nm == c then some 0
      else
        match findDirIdx tl c with
        | some j => some (j + 1)
        | none => none
  | _ :: tl =>
      match findDirIdx tl c with
      | some j => some (j + 1)
      | none => none

/-- Default node used only to state `List.getD` at indices that
`findDirIdx` guarantees to be in range. -/
def dfltNode : TreeNode := .directory "" [] true

/-- `App::add_path_to_tree`: walk the path's components, descending into the
first existing same-named `Directory` child for each non-final component
(creating an expanded one at the end of the child list otherwise) and
unconditionally appending a fresh `File` leaf for the final component. -/
def addPathToTree : TreeNode → List String → String → TreeNode
  | t, [], _ => t
  | .directory n cs e, [last], fp => .directory n (cs ++ [TreeNode.newFile last fp]) e
  | .directory n cs e, c :: c2 :: rest, fp =>
      match findDirIdx cs c with
      | some i =>
          .directory n (cs.set i (addPathToTree (cs.getD i dfltNode) (c2 :: rest) fp)) e
      | none =>
          .directory n (cs ++ [addPathToTree (TreeNode.newDirectory c) (c2 :: rest) fp]) e
  | .file n p s, _, _ => .file n p s

/-- The tree that `App::new` builds: a synthetic root directory with empty
name, each discovered path inserted in order.  A path is given by its
component list; the stored `full_path` is the components joined by `/`. -/
def buildTree (files : List (List String)) : TreeNode :=
  files.foldl
    (fun t comps => addPathToTree t comps (String.intercalate "/" comps))
    (TreeNode.newDirectory "")

/-- `App::new`. -/
def App.new (files : List (List String)) : App :=
  let root := buildTree files
  { tree := root, ft := FlattenedTree.fromTree root }

mutual

/-- The inner `find_and_expand` / `find_and_collapse` helper: depth-first
search for the first directory named `name`, setting its `expanded` flag to
`b`; returns the updated node and whether a match was found. -/
def findAndSetExpanded (b : Bool) (name : String) : TreeNode → TreeNode × Bool
  | .directory nm cs e =>
      if nm == name then (.directory nm cs b, true)
      else
        match findAndSetExpandedList b name cs with
        | (cs2, found) => (.directory nm cs2 e, found)
  | .file n p s => (.file n p s, false)

def findAndSetExpandedList (b : Bool) (name : String) :
    List TreeNode → List TreeNode × Bool
  | [] => ([], false)
  | c :: rest =>
      match findAndSetExpanded b name c with
      | (c2, true) => (c2 :: rest, true)
      | (_, false) =>
          match findAndSetExpandedList b name rest with
          | (rest2, found) => (c :: rest2, found)

end

/-- `App::expand_directory_by_name` / `App::collapse_directory_by_name`:
the search runs over the root's children only (breaking at the first child
subtree that contained a match); the root itself is never matched. -/
def App.setExpandedByName (a : App) (b : Bool) (name : String) : App × Bool :=
  match a.tree with
  | .directory n cs e =>
      match findAndSetExpandedList b name cs with
      | (cs2, found) => ({ a with tree := .directory n cs2 e }, found)
  | t => ({ a with tree := t }, false)

/-- `App::update_flattened_tree`: remember the directory name under the
cursor, reflatten from the tree, and restore the cursor to the first
directory with that name if present. -/
def App.updateFlattenedTree (a : App) : App :=
  let nameOpt : Option String :=
    match a.ft.cursor with
    | some idx =>
        match a.ft.nodes[idx]? with
        | some (.directory nm _ _, _) => some nm
        | _ => none
    | none => none
  let ft2 := FlattenedTree.fromTree a.tree
  match nameOpt with
  | some dirName =>
      if ft2.nodes.isEmpty then { a with ft := ft2 }
      else
        match ft2.nodes.findIdx? (fun nd =>
            match nd.1 with
            | .directory nm _ _ => nm == dirName
            | _ => false) with
        | some i => { a with ft := { ft2 with cursor := some i } }
        | none => { a with ft := ft2 }
  | none => { a with ft := ft2 }

/-- The `KeyCode::Right` / `KeyCode::Left` handler in `run_app`: read the
directory name under the cursor, mutate the tree by name, reflatten, then
override the cursor with the old index clamped into the new sequence. -/
def App.handleExpandCollapse (a : App) (b : Bool) : App :=
  let dirNameOpt : Option String :=
    match a.ft.cursor with
    | some i =>
        match a.ft.nodes[i]? with
        | some (.directory nm _ _, _) => some nm
        | _ => none
    | none => none
  match dirNameOpt with
  | none => a
  | some name =>
      match a.setExpandedByName b name with
      | (a1, true) =>
          let currentSelection := a1.ft.cursor
          let a2 := a1.updateFlattenedTree
          match currentSelection with
          | some idx =>
              if idx < a2.ft.nodes.length then
                { a2 with ft := { a2.ft with cursor := some idx } }
              else if !a2.ft.nodes.isEmpty then
                { a2 with ft := { a2.ft with cursor := some 0 } }
              else a2
          | none => a2
      | (_, false) => a

/-! ## The interaction state machine (`run_app` / `run_tui`) -/

inductive SelAction where
  | moveUp | moveDown | expandRight | collapseLeft | toggleSelect
  | selectAll | deselectAll | confirm | quit | cancel

inductive SessionState where
  | browsing (a : App)
  | confirmed (paths : List String)
  | cancelled (reason : String)

/-- One iteration of the `run_app` event loop on a received action, combined
with `run_tui`'s interpretation of the result: `Ok(())` returns the app's
selected paths (`Confirmed`), `Err` is a cancelled session. -/
def step (a : App) : SelAction → SessionState
  | .moveUp => .browsing { a with ft := a.ft.previous }
  | .moveDown => .browsing { a with ft := a.ft.next }
  | .expandRight => .browsing (a.handleExpandCollapse true)
  | .collapseLeft => .browsing (a.handleExpandCollapse false)
  | .toggleSelect => .browsing { a with ft := a.ft.toggleSelected }
  | .selectAll => .browsing { a with ft := a.ft.selectAllFiles }
  | .deselectAll => .browsing { a with ft := a.ft.deselectAllFiles }
  | .confirm =>
      if a.ft.selectedFilesCount > 0 then .confirmed a.ft.getSelectedPaths
      else .browsing a
  | .quit =>
      if a.ft.selectedFilesCount > 0 then .confirmed a.ft.getSelectedPaths
      else .cancelled "No files selected"
  | .cancel => .cancelled "Selection cancelled"

/-- Run an action that keeps the session in `Browsing`, returning the app. -/
def stepA (a : App) (act : SelAction) : App :=
  match step a act with
  | .browsing a2 => a2
  | _ => a

/-! ## Tree-level counters and full pre-order (for C2, C9, C10) -/

mutual

/-- Number of `File` leaves anywhere in the tree. -/
def countFilesTree : TreeNode → Nat
  | .directory _ cs _ => countFilesList cs
  | .file _ _ _ => 1

def countFilesList : List TreeNode → Nat
  | [] => 0
  | c :: rest => countFilesTree c + countFilesList rest

end

mutual

/-- Number of selected `File` leaves anywhere in the tree. -/
def countSelectedTree : TreeNode → Nat
  | .directory _ cs _ => countSelectedList cs
  | .file _ _ s => if s then 1 else 0

def countSelectedList : List TreeNode → Nat
  | [] => 0
  | c :: rest => countSelectedTree c + countSelectedList rest

end

mutual

/-- Every directory in the tree (itself included) has `expanded = true`. -/
def allExpandedT : TreeNode → Bool
  | .directory _ cs e => e && allExpandedL cs
  | .file _ _ _ => true

def allExpandedL : List TreeNode → Bool
  | [] => true
  | c :: rest => allExpandedT c && allExpandedL rest

end

mutual

/-- Unconditional depth-first pre-order walk (never skips children). -/
def preorderNode : TreeNode → Nat → List (TreeNode × Nat)
  | .directory n cs e, d => (TreeNode.directory n [] e, d) :: preorderList cs (d + 1)
  | .file n p s, d => [(.file n p s, d)]

def preorderList : List TreeNode → Nat → List (TreeNode × Nat)
  | [], _ => []
  | c :: rest, d => preorderNode c d ++ preorderList rest d

end

/-! ## Lemmas about the flattened sequence -/

theorem length_selected_filterMap (l : List (TreeNode × Nat)) :
    (l.filterMap fun nd =>
        match nd.1 with
        | .file _ p true => some p
        | _ => none).length
      = l.countP (fun nd => nd.1.isFile && nd.1.isSelected) := by
  induction l with
  | nil => rfl
  | cons hd tl ih =>
      obtain ⟨n, d⟩ := hd
      cases n with
      | directory nm cs e =>
          simpa [List.countP_cons, TreeNode.isFile, TreeNode.isSelected] using ih
      | file nm p s =>
          cases s <;>
            simp [List.countP_cons, TreeNode.isFile, TreeNode.isSelected, ih]

theorem getSelectedPaths_length (ft : FlattenedTree) :
    ft.getSelectedPaths.length = ft.selectedFilesCount :=
  length_selected_filterMap ft.nodes

theorem selectAll_nodes_all_selected (l : List (TreeNode × Nat)) :
    ((l.map fun nd =>
        match nd with
        | (.file n p _, d) => ((.file n p true : TreeNode), d)
        | other => other).all
      fun nd => !nd.1.isFile || nd.1.isSelected) = true := by
  induction l with
  | nil => rfl
  | cons hd tl ih =>
      obtain ⟨n, d⟩ := hd
      cases n <;> simp_all [TreeNode.isFile, TreeNode.isSelected]

theorem selectAll_count_eq_total (l : List (TreeNode × Nat)) :
    ((l.map fun nd =>
        match nd with
        | (.file n p _, d) => ((.file n p true : TreeNode), d)
        | other => other).countP
      fun nd => nd.1.isFile && nd.1.isSelected)
      = l.countP (fun nd => nd.1.isFile) := by
  induction l with
  | nil => rfl
  | cons hd tl ih =>
      obtain ⟨n, d⟩ := hd
      cases n <;> simp_all [List.countP_cons, TreeNode.isFile, TreeNode.isSelected]

theorem deselectAll_count_zero (l : List (TreeNode × Nat)) :
    ((l.map fun nd =>
        match nd with
        | (.file n p _, d) => ((.file n p false : TreeNode), d)
        | other => other).countP
      fun nd => nd.1.isFile && nd.1.isSelected) = 0 := by
  induction l with
  | nil => rfl
  | cons hd tl ih =>
      obtain ⟨n, d⟩ := hd
      cases n <;> simp_all [List.countP_cons, TreeNode.isFile, TreeNode.isSelected]

theorem countFilesList_append (a b : List TreeNode) :
    countFilesList (a ++ b) = countFilesList a + countFilesList b := by
  induction a with
  | nil => simp [countFilesList]
  | cons hd tl ih => simp [countFilesList, ih]; omega

theorem findDirIdx_lt_length (cs : List TreeNode) (c : String) (i : Nat)
    (h : findDirIdx cs c = some i) : i < cs.length := by
  induction cs generalizing i with
  | nil => simp [findDirIdx] at h
  | cons hd tl ih =>
      have key : (match findDirIdx tl c with
          | some j => some (j + 1)
          | none => none) = some i -> i < tl.length + 1 := by
        cases hfd : findDirIdx tl c with
        | none => intro hx; simp at hx
        | some j =>
            intro hx
            simp only [Option.some.injEq] at hx
            have := ih j hfd
            omega
      cases hd with
      | directory nm cs0 e =>
          cases hc : (nm == c) with
          | true =>
              simp [findDirIdx, hc] at h
              simp only [List.length_cons]
              omega
          | false =>
              simp only [findDirIdx, hc, Bool.false_eq_true, if_false] at h
              simpa using key h
      | file n p s =>
          simp only [findDirIdx] at h
          simpa using key h

theorem findDirIdx_getD_isDir (cs : List TreeNode) (c : String) (i : Nat)
    (h : findDirIdx cs c = some i) : (cs.getD i dfltNode).isFile = false := by
  induction cs generalizing i with
  | nil => simp [findDirIdx] at h
  | cons hd tl ih =>
      have key : (match findDirIdx tl c with
          | some j => some (j + 1)
          | none => none) = some i ->
          ((hd :: tl).getD i dfltNode).isFile = false := by
        cases hfd : findDirIdx tl c with
        | none => intro hx; simp at hx
        | some j =>
            intro hx
            simp only [Option.some.injEq] at hx
            obtain rfl : i = j + 1 := by omega
            simpa [List.getD_cons_succ] using ih j hfd
      cases hd with
      | directory nm cs0 e =>
          cases hc : (nm == c) with
          | true =>
              simp [findDirIdx, hc] at h
              obtain rfl : i = 0 := by omega
              simp [List.getD_cons_zero, TreeNode.isFile]
          | false =>
              simp only [findDirIdx, hc, Bool.false_eq_true, if_false] at h
              exact key h
      | file n p s =>
          simp only [findDirIdx] at h
          exact key h

theorem countFilesList_set (cs : List TreeNode) (i : Nat) (x : TreeNode)
    (h : i < cs.length) :
    countFilesList (cs.set i x) + countFilesTree (cs.getD i dfltNode)
      = countFilesList cs + countFilesTree x := by
  induction cs generalizing i with
  | nil => simp at h
  | cons hd tl ih =>
      cases i with
      | zero =>
          simp only [List.set_cons_zero, countFilesList, List.getD_cons_zero]
          omega
      | succ j =>
          simp only [List.set_cons_succ, countFilesList, List.getD_cons_succ]
          have := ih j (by simpa using h)
          omega

theorem countFiles_addPath (comps : List String) :
    ∀ (t : TreeNode) (fp : String), comps ≠ [] → t.isFile = false →
      countFilesTree (addPathToTree t comps fp) = countFilesTree t + 1 := by
  induction comps with
  | nil => intro t fp h hf; exact absurd rfl h
  | cons c rest ih =>
      intro t fp _ hf
      cases t with
      | file n p s => simp [TreeNode.isFile] at hf
      | directory n cs e =>
          cases rest with
          | nil =>
              simp [addPathToTree, countFilesTree, countFilesList_append, countFilesList,
                TreeNode.newFile]
          | cons c2 rest2 =>
              cases hidx : findDirIdx cs c with
              | some i =>
                  simp only [addPathToTree, hidx, countFilesTree]
                  have hlt := findDirIdx_lt_length cs c i hidx
                  have hdir := findDirIdx_getD_isDir cs c i hidx
                  have hset := countFilesList_set cs i
                    (addPathToTree (cs.getD i dfltNode) (c2 :: rest2) fp) hlt
                  have hrec := ih (cs.getD i dfltNode) fp (by simp) hdir
                  omega
              | none =>
                  simp only [addPathToTree, hidx, countFilesTree, countFilesList_append,
                    countFilesList]
                  rw [ih (TreeNode.newDirectory c) fp (by simp)
                    (by simp [TreeNode.newDirectory, TreeNode.isFile])]
                  simp [countFilesTree, countFilesList, TreeNode.newDirectory]

theorem allExpandedL_append (a b : List TreeNode) :
    allExpandedL (a ++ b) = (allExpandedL a && allExpandedL b) := by
  induction a with
  | nil => simp [allExpandedL]
  | cons hd tl ih => simp [allExpandedL, ih, Bool.and_assoc]

theorem allExpandedL_set (cs : List TreeNode) (i : Nat) (x : TreeNode)
    (h : allExpandedL cs = true) (hx : allExpandedT x = true) :
    allExpandedL (cs.set i x) = true := by
  induction cs generalizing i with
  | nil => simpa [List.set] using h
  | cons hd tl ih =>
      simp only [allExpandedL, Bool.and_eq_true] at h
      cases i with
      | zero => simp only [List.set_cons_zero, allExpandedL, Bool.and_eq_true]; exact ⟨hx, h.2⟩
      | succ j =>
          simp only [List.set_cons_succ, allExpandedL, Bool.and_eq_true]
          exact ⟨h.1, ih j h.2⟩

theorem allExpandedL_getD (cs : List TreeNode) (i : Nat)
    (h : allExpandedL cs = true) (hi : i < cs.length) :
    allExpandedT (cs.getD i dfltNode) = true := by
  induction cs generalizing i with
  | nil => simp at hi
  | cons hd tl ih =>
      simp only [allExpandedL, Bool.and_eq_true] at h
      cases i with
      | zero => simpa [List.getD_cons_zero] using h.1
      | succ j =>
          simp only [List.getD_cons_succ]
          exact ih j h.2 (by simpa using hi)

theorem allExpanded_addPath (comps : List String) :
    ∀ (t : TreeNode) (fp : String), allExpandedT t = true →
      allExpandedT (addPathToTree t comps fp) = true := by
  induction comps with
  | nil => intro t fp h; simpa [addPathToTree] using h
  | cons c rest ih =>
      intro t fp h
      cases t with
      | file n p s => simpa [addPathToTree] using h
      | directory n cs e =>
          simp only [allExpandedT, Bool.and_eq_true] at h
          cases rest with
          | nil =>
              simp only [addPathToTree, allExpandedT, Bool.and_eq_true,
                allExpandedL_append]
              exact ⟨h.1, by simp [h.2, allExpandedL, allExpandedT, TreeNode.newFile]⟩
          | cons c2 rest2 =>
              cases hidx : findDirIdx cs c with
              | some i =>
                  simp only [addPathToTree, hidx, allExpandedT, Bool.and_eq_true]
                  refine ⟨h.1, allExpandedL_set cs i _ h.2 ?_⟩
                  exact ih _ fp
                    (allExpandedL_getD cs i h.2 (findDirIdx_lt_length cs c i hidx))
              | none =>
                  simp only [addPathToTree, hidx, allExpandedT, Bool.and_eq_true,
                    allExpandedL_append]
                  refine ⟨h.1, h.2, ?_⟩
                  have := ih (TreeNode.newDirectory c) fp
                    (by simp [TreeNode.newDirectory, allExpandedT, allExpandedL])
                  simp [allExpandedL, this]

theorem allExpanded_buildTree (files : List (List String)) :
    allExpandedT (buildTree files) = true := by
  have general :
      ∀ (fs : List (List String)) (t : TreeNode), allExpandedT t = true →
        allExpandedT (fs.foldl
          (fun t comps => addPathToTree t comps (String.intercalate "/" comps)) t) = true := by
    intro fs
    induction fs with
    | nil => intro t h; simpa using h
    | cons hd tl ih =>
        intro t h
        exact ih _ (allExpanded_addPath hd t _ h)
  exact general files _ (by simp [TreeNode.newDirectory, allExpandedT, allExpandedL])

theorem addPath_directory_shape (comps : List String) (fp : String)
    (n : String) (cs : List TreeNode) (e : Bool) :
    ∃ cs2, addPathToTree (.directory n cs e) comps fp = .directory n cs2 e := by
  cases comps with
  | nil => exact ⟨cs, by simp [addPathToTree]⟩
  | cons c rest =>
      cases rest with
      | nil =>
          refine ⟨cs ++ [TreeNode.newFile c fp], ?_⟩
          simp [addPathToTree]
      | cons c2 rest2 =>
          cases hidx : findDirIdx cs c with
          | some i =>
              refine ⟨cs.set i (addPathToTree (cs.getD i dfltNode) (c2 :: rest2) fp), ?_⟩
              simp [addPathToTree, hidx]
          | none =>
              refine ⟨cs ++ [addPathToTree (TreeNode.newDirectory c) (c2 :: rest2) fp], ?_⟩
              simp [addPathToTree, hidx]

theorem buildTree_shape (files : List (List String)) :
    ∃ cs, buildTree files = .directory "" cs true := by
  have general :
      ∀ (fs : List (List String)) (n : String) (cs : List TreeNode) (e : Bool),
        ∃ cs2, fs.foldl
          (fun t comps => addPathToTree t comps (String.intercalate "/" comps))
            (.directory n cs e) = .directory n cs2 e := by
    intro fs
    induction fs with
    | nil => intro n cs e; exact ⟨cs, rfl⟩
    | cons hd tl ih =>
        intro n cs e
        obtain ⟨cs2, h2⟩ := addPath_directory_shape hd (String.intercalate "/" hd) n cs e
        obtain ⟨cs3, h3⟩ := ih n cs2 e
        exact ⟨cs3, by simpa [h2] using h3⟩
  exact general files "" [] true

mutual

theorem flatten_eq_preorder (t : TreeNode) (d : Nat) (h : allExpandedT t = true) :
    flattenNode t d = preorderNode t d := by
  match t with
  | .file n p s => rfl
  | .directory n cs e =>
      simp only [allExpandedT, Bool.and_eq_true] at h
      simp only [flattenNode, preorderNode, h.1, if_true]
      rw [flattenList_eq_preorder cs (d + 1) h.2]

theorem flattenList_eq_preorder (cs : List TreeNode) (d : Nat)
    (h : allExpandedL cs = true) : flattenList cs d = preorderList cs d := by
  match cs with
  | [] => rfl
  | c :: rest =>
      simp only [allExpandedL, Bool.and_eq_true] at h
      simp only [flattenList, preorderList]
      rw [flatten_eq_preorder c d h.1, flattenList_eq_preorder rest d h.2]

end

/-! ## Concrete interaction scenarios -/

/-- Session over the single discovered path `a/f.txt`. -/
def demoApp0 : App := App.new [["a", "f.txt"]]

/-- Move the cursor onto `f.txt`, select it, move back up onto directory
`a`: one file selected, cursor on a directory. -/
def demoApp1 : App :=
  stepA (stepA (stepA (stepA demoApp0 .moveDown) .moveDown) .toggleSelect) .moveUp

/-- Collapse directory `a` (hiding `f.txt`), then `SelectAll`. -/
def hiddenApp : App := stepA (stepA (stepA demoApp0 .moveDown) .collapseLeft) .selectAll

/-- **C1.** The claim says an `ExpandRight`/`CollapseLeft` handled while
`Browsing` leaves `selected_paths()` and every `File` node's `selected` flag
unchanged.  The code violates this: `toggle_selected` mutates only the
flattened copies, `collapse_directory_by_name` mutates the tree, and
`update_flattened_tree` rebuilds the flattened sequence from the
never-selected tree, so one `CollapseLeft` wipes the selection.  Evaluated at
a session over `["a/f.txt"]` with `f.txt` selected and the cursor on `a`:
the selected-path set goes from `["a/f.txt"]` to `[]`. -/
theorem collapse_in_browsing_loses_selection :
    demoApp1.ft.getSelectedPaths = ["a/f.txt"]
  ∧ step demoApp1 .collapseLeft = .browsing (stepA demoApp1 .collapseLeft)
  ∧ (stepA demoApp1 .collapseLeft).ft.getSelectedPaths = ([] : List String) :=
  ⟨rfl, rfl, rfl⟩

/-- **C2, counterexample.** The claim says `select_all()` sets the
`selected` flag of every `File` node in the tree, including files hidden
under collapsed directories.  After collapsing `a` and running `SelectAll`,
the session's tree still holds `f.txt` with `selected = false`, and
expanding `a` again exposes `selected_count() = 0` against
`total_file_count() = 1`. -/
theorem select_all_skips_hidden_file_cex :
    hiddenApp.tree
      = .directory "" [.directory "a" [.file "f.txt" "a/f.txt" false] false] true
  ∧ (stepA hiddenApp .expandRight).ft.selectedFilesCount = 0
  ∧ (stepA hiddenApp .expandRight).ft.totalFilesCount = 1 :=
  ⟨rfl, rfl, rfl⟩

/-- **C2, amended.** `select_all()` / `deselect_all()` set the `selected`
flag of every `File` node **currently present in the flattened (visible)
sequence**; the underlying tree — including any file hidden under a
collapsed directory — is never mutated by selection.  Afterwards
`selected_count() = total_file_count()` (resp. `0`), both counters being
computed over the flattened sequence. -/
theorem select_all_deselect_all_visible_semantics (a : App) :
    ((stepA a .selectAll).ft.nodes.all fun nd => !nd.1.isFile || nd.1.isSelected) = true
  ∧ (stepA a .selectAll).ft.selectedFilesCount = a.ft.totalFilesCount
  ∧ (stepA a .selectAll).tree = a.tree
  ∧ (stepA a .deselectAll).ft.selectedFilesCount = 0
  ∧ (stepA a .deselectAll).tree = a.tree :=
  ⟨selectAll_nodes_all_selected a.ft.nodes,
   selectAll_count_eq_total a.ft.nodes,
   rfl,
   deselectAll_count_zero a.ft.nodes,
   rfl⟩

/-- **C6.** While `Browsing`: `Confirm` transitions to
`Confirmed{selected_paths()}` exactly when `selected_count() > 0` and
otherwise stays `Browsing`; `Quit` transitions to `Confirmed` under the same
guard and otherwise to `Cancelled`; and a positive selected count forces the
confirmed path list to be non-empty. -/
theorem confirm_quit_transition_guards (a : App) :
    step a .confirm = (if a.ft.selectedFilesCount > 0
        then SessionState.confirmed a.ft.getSelectedPaths else .browsing a)
  ∧ step a .quit = (if a.ft.selectedFilesCount > 0
        then SessionState.confirmed a.ft.getSelectedPaths
        else .cancelled "No files selected")
  ∧ (a.ft.selectedFilesCount > 0 → a.ft.getSelectedPaths ≠ []) := by
  refine ⟨rfl, rfl, ?_⟩
  intro hpos hnil
  have hlen := getSelectedPaths_length a.ft
  rw [hnil] at hlen
  simp only [List.length_nil] at hlen
  omega

theorem confirm_quit_transition_guards_witness :
    demoApp1.ft.selectedFilesCount > 0 ∧ demoApp1.ft.getSelectedPaths ≠ [] :=
  ⟨by decide, (confirm_quit_transition_guards demoApp1).2.2 (by decide)⟩

/-- **C9.** Inserting a non-empty path into any (non-file) tree node always
adds exactly one new `File` leaf — directory components are reused but file
leaves are never deduplicated — so `build(["x.txt","x.txt"])` produces two
sibling `File` nodes with identical name and path, while
`build(["a/b.txt","a/c.txt"])` reuses the single directory `a`. -/
theorem build_appends_file_leaf_without_dedup :
    (∀ (t : TreeNode) (comps : List String) (fp : String),
        comps ≠ [] → t.isFile = false →
        countFilesTree (addPathToTree t comps fp) = countFilesTree t + 1)
  ∧ buildTree [["x.txt"], ["x.txt"]]
      = .directory "" [.file "x.txt" "x.txt" false, .file "x.txt" "x.txt" false] true
  ∧ buildTree [["a", "b.txt"], ["a", "c.txt"]]
      = .directory "" [.directory "a"
          [.file "b.txt" "a/b.txt" false, .file "c.txt" "a/c.txt" false] true] true :=
  ⟨fun t comps fp h hf => countFiles_addPath comps t fp h hf, rfl, rfl⟩

theorem build_appends_file_leaf_without_dedup_witness :
    countFilesTree (addPathToTree (buildTree [["x.txt"]]) ["x.txt"] "x.txt")
      = countFilesTree (buildTree [["x.txt"]]) + 1 :=
  build_appends_file_leaf_without_dedup.1 (buildTree [["x.txt"]]) ["x.txt"] "x.txt"
    (by simp) (by decide)

/-- **C10.** Every directory created by `build` — the synthetic root
included — has `expanded = true`, so the flattened sequence computed by
`App::new` immediately after the build is the full depth-first pre-order of
the tree, and the cursor sits at index 0 whenever that sequence is
non-empty. -/
theorem build_all_expanded_and_initial_flatten (files : List (List String)) :
    allExpandedT (buildTree files) = true
  ∧ (App.new files).ft.nodes = preorderNode (buildTree files) 0
  ∧ ((App.new files).ft.nodes ≠ [] → (App.new files).ft.cursor = some 0) := by
  have hexp := allExpanded_buildTree files
  refine ⟨hexp, ?_, ?_⟩
  · show (FlattenedTree.fromTree (buildTree files)).nodes = _
    simp only [FlattenedTree.fromTree]
    exact flatten_eq_preorder _ 0 hexp
  · intro hne
    show (FlattenedTree.fromTree (buildTree files)).cursor = some 0
    simp only [FlattenedTree.fromTree]
    obtain ⟨cs, hshape⟩ := buildTree_shape files
    rw [hshape]
    simp [flattenNode]

theorem build_all_expanded_and_initial_flatten_witness :
    (App.new [["f.txt"]]).ft.nodes ≠ [] ∧ (App.new [["f.txt"]]).ft.cursor = some 0 := by
  have hne : (App.new [["f.txt"]]).ft.nodes ≠ [] := by
    intro h
    have h2 : (App.new [["f.txt"]]).ft.nodes.length = 2 := rfl
    rw [h] at h2
    simp at h2
  exact ⟨hne, (build_all_expanded_and_initial_flatten [["f.txt"]]).2.2 hne⟩

/-! ## Gitignore-style pattern matcher (`src/infra/file_system.rs`) -/

/-- The tail of `matches_gitignore_pattern`: the root-anchored prefix check
(leading `/` stripped) followed by the final substring fallback. -/
def anchoredOrContains (clean path : Str) : Bool :=
  if listIsPrefixB ['/'] clean then
    path == dropLeading '/' clean
      || listIsPrefixB (dropLeading '/' clean ++ ['/']) path
  else strContainsSub path clean

/-- `matches_gitignore_pattern(path, pattern, is_dir)`. -/
def matchesGitignorePattern (path pattern : Str) (isDir : Bool) : Bool :=
  if listIsSuffixB ['/'] pattern && !isDir then false
  else
    let clean := dropTrailing '/' pattern
    if !clean.contains '*'
        && (path == clean || listIsPrefixB (clean ++ ['/']) path
            || listIsSuffixB ('/' :: clean) path) then
      true
    else if clean.contains '*' then
      if listIsPrefixB ['*'] clean && listIsSuffixB ['*'] clean then
        strContainsSub path (trimBoth '*' clean)
      else if listIsPrefixB ['*'] clean then
        listIsSuffixB (dropLeading '*' clean) path
      else if listIsSuffixB ['*'] clean then
        listIsPrefixB (dropTrailing '*' clean) path
      else
        if 2 ≤ (splitChar '*' clean).length then
          listIsPrefixB ((splitChar '*' clean).headD []) path
            && listIsSuffixB ((splitChar '*' clean).getLastD []) path
            && (((splitChar '*' clean).drop 1).dropLast.all fun part =>
                strContainsSub path part)
        else anchoredOrContains clean path
    else anchoredOrContains clean path

/-- The four wildcard shapes exactly as the specification words them:
both-ends wildcard is a containment test on the inner text, a leading
wildcard a suffix test, a trailing wildcard a prefix test, interior
wildcards split the pattern and require the start fragment as prefix, the
end fragment as suffix and every interior fragment as a substring. -/
def specWildcardShapes (clean path : Str) : Bool :=
  if listIsPrefixB ['*'] clean && listIsSuffixB ['*'] clean then
    strContainsSub path (trimBoth '*' clean)
  else if listIsPrefixB ['*'] clean then
    listIsSuffixB (dropLeading '*' clean) path
  else if listIsSuffixB ['*'] clean then
    listIsPrefixB (dropTrailing '*' clean) path
  else
    listIsPrefixB ((splitChar '*' clean).headD []) path
      && listIsSuffixB ((splitChar '*' clean).getLastD []) path
      && (((splitChar '*' clean).drop 1).dropLast.all fun part =>
          strContainsSub path part)

/-- `Path::strip_prefix(root).unwrap_or(path)` on slash-joined paths. -/
def relTo (root path : Str) : Str :=
  if listIsPrefixB (root ++ ['/']) path then path.drop (root.length + 1)
  else if path == root then []
  else path

/-- The rule loop of `should_ignore_by_gitignore`, carrying the pair
`(matched_negated, should_ignore)`. -/
def ignoreLoop (path : Str) (isDir : Bool) : List Str → Bool → Bool → Bool × Bool
  | [], mn, si => (mn, si)
  | pat :: rest, mn, si =>
      if listIsPrefixB ['!'] pat then
        if matchesGitignorePattern path (pat.drop 1) isDir then
          ignoreLoop path isDir rest true si
        else ignoreLoop path isDir rest mn si
      else
        if !mn && matchesGitignorePattern path pat isDir then
          ignoreLoop path isDir rest mn true
        else ignoreLoop path isDir rest mn si

/-- `should_ignore_by_gitignore(path, root, patterns)`; `is_dir` (a
filesystem call in the source) is passed explicitly.  The rule set is given
as a list so that iteration-order independence is provable. -/
def shouldIgnoreByGitignore (path root : Str) (patterns : List Str) (isDir : Bool) : Bool :=
  if patterns.isEmpty then false
  else
    let r := ignoreLoop (relTo root path) isDir patterns false false
    if r.1 then false else r.2

/-- A rule is negated and its underlying pattern (the `!` stripped) matches. -/
def matchesNegatedRule (path : Str) (isDir : Bool) (pat : Str) : Bool :=
  listIsPrefixB ['!'] pat && matchesGitignorePattern path (pat.drop 1) isDir

/-- A rule is non-negated and matches. -/
def matchesPlainRule (path : Str) (isDir : Bool) (pat : Str) : Bool :=
  !listIsPrefixB ['!'] pat && matchesGitignorePattern path pat isDir

/-! ## Bridges between the boolean string helpers and list predicates -/

theorem listIsPrefixB_iff (p s : Str) : listIsPrefixB p s = true ↔ p <+: s := by
  induction p generalizing s with
  | nil => simp [listIsPrefixB]
  | cons a p ih =>
      cases s with
      | nil => simp [listIsPrefixB]
      | cons b s =>
          simp [listIsPrefixB, List.cons_prefix_cons, ih, Bool.and_eq_true, beq_iff_eq]

theorem listIsSuffixB_iff (p s : Str) : listIsSuffixB p s = true ↔ p <:+ s := by
  rw [listIsSuffixB, listIsPrefixB_iff, List.reverse_prefix]

theorem strContainsSub_iff (s p : Str) : strContainsSub s p = true ↔ p <:+: s := by
  induction s with
  | nil => simp [strContainsSub, List.isEmpty_iff]
  | cons a t ih =>
      simp [strContainsSub, List.infix_cons_iff, listIsPrefixB_iff, ih, Bool.or_eq_true]

theorem prefixB_head (a : Char) (l s : Str) (h : listIsPrefixB (a :: l) s = true) :
    listIsPrefixB [a] s = true := by
  cases s with
  | nil => simp [listIsPrefixB] at h
  | cons b s2 =>
      simp only [listIsPrefixB, Bool.and_eq_true] at h ⊢
      exact ⟨h.1, trivial⟩

theorem splitChar_ne_nil (c : Char) (l : Str) : splitChar c l ≠ [] := by
  induction l with
  | nil => simp [splitChar]
  | cons x xs ih =>
      simp only [splitChar]
      cases hx : (x == c) with
      | true => simp
      | false =>
          simp only [Bool.false_eq_true, if_false]
          cases h2 : splitChar c xs with
          | nil => exact absurd h2 ih
          | cons h t => simp

theorem splitChar_length_two (c : Char) (l : Str) (h : c ∈ l) :
    2 ≤ (splitChar c l).length := by
  induction l with
  | nil => simp at h
  | cons x xs ih =>
      simp only [splitChar]
      cases hx : (x == c) with
      | true =>
          simp only [hx, if_true, List.length_cons]
          have hne := splitChar_ne_nil c xs
          have h1 : 1 ≤ (splitChar c xs).length := by
            cases h2 : splitChar c xs with
            | nil => exact absurd h2 hne
            | cons a b => simp
          omega
      | false =>
          have hxs : c ∈ xs := by
            rw [beq_eq_false_iff_ne] at hx
            rcases List.mem_cons.mp h with h1 | h1
            · exact absurd h1.symm hx
            · exact h1
          have := ih hxs
          simp only [hx, Bool.false_eq_true, if_false]
          cases h2 : splitChar c xs with
          | nil => exact absurd h2 (splitChar_ne_nil c xs)
          | cons a b =>
              rw [h2] at this
              simpa using this

/-- **C7.** For every pattern whose clean form (trailing `/` stripped)
contains `*`, and every path — provided the directory-only gate does not
fire — `matches` evaluates exactly the four wildcard shapes of the
specification, in the spec's precedence order: `*X*` is containment of the
inner text, `*X` a suffix test, `X*` a prefix test, and `A*B*…*Z` the
prefix/suffix/contains-every-interior-fragment test. -/
theorem wildcard_pattern_shapes (path pattern : Str) (isDir : Bool)
    (hgate : (listIsSuffixB ['/'] pattern && !isDir) = false)
    (hstar : (dropTrailing '/' pattern).contains '*' = true) :
    matchesGitignorePattern path pattern isDir
      = specWildcardShapes (dropTrailing '/' pattern) path := by
  have hmem : '*' ∈ dropTrailing '/' pattern := by simpa using hstar
  have hlen := splitChar_length_two '*' (dropTrailing '/' pattern) hmem
  simp only [matchesGitignorePattern, specWildcardShapes]
  rw [hgate, hstar]
  simp only [Bool.not_true, Bool.false_and, Bool.false_eq_true, if_false, if_true]
  rw [if_pos hlen]

theorem wildcard_pattern_shapes_witness :
    matchesGitignorePattern (String.toList "test.log") (String.toList "*.log") false
      = specWildcardShapes (dropTrailing '/' (String.toList "*.log"))
          (String.toList "test.log")
  ∧ matchesGitignorePattern (String.toList "test.log") (String.toList "*.log") false = true
  ∧ matchesGitignorePattern (String.toList "logs/test.log") (String.toList "*.log") false
      = true
  ∧ matchesGitignorePattern (String.toList "notalog.txt") (String.toList "*.log") false
      = false :=
  ⟨wildcard_pattern_shapes (String.toList "test.log") (String.toList "*.log") false
      (by decide) (by decide),
   by decide, by decide, by decide⟩

/-- **C5, counterexample.** The claim says every root-anchored pattern —
"including those containing `*`" — is treated as a plain prefix:
`matches(path, rule, _)` should be true iff the path equals the clean
pattern or starts with it followed by `/`.  For the anchored wildcard
pattern `"/a*b"` and the path `"a*b/c.txt"`, the path does start with the
clean pattern `"a*b"` followed by `/` (second conjunct), yet the code
returns `false`: the wildcard branch consumes anchored patterns containing
`*` before the anchored-prefix branch is ever reached. -/
theorem anchored_wildcard_cex :
    matchesGitignorePattern (String.toList "a*b/c.txt") (String.toList "/a*b") false = false
  ∧ listIsPrefixB
      (dropLeading '/' (dropTrailing '/' (String.toList "/a*b")) ++ ['/'])
      (String.toList "a*b/c.txt") = true := by
  exact ⟨by decide, by decide⟩

/-- **C5, amended.** For a root-anchored rule whose clean pattern contains
no `*`, and a relative path (one that does not itself start with `/` and
contains no `//`), `matches` is exactly the plain prefix test: the path
equals the clean pattern with its leading `/` stripped, or starts with it
followed by `/`.  Anchored patterns that do contain `*` are instead handled
by the wildcard branch (on the still-slash-prefixed pattern) and never
reach the anchored-prefix branch. -/
theorem anchored_no_wildcard_prefix_semantics (path pattern : Str) (isDir : Bool)
    (hgate : (listIsSuffixB ['/'] pattern && !isDir) = false)
    (hanch : listIsPrefixB ['/'] (dropTrailing '/' pattern) = true)
    (hnostar : (dropTrailing '/' pattern).contains '*' = false)
    (hp1 : listIsPrefixB ['/'] path = false)
    (hp2 : strContainsSub path ['/', '/'] = false) :
    matchesGitignorePattern path pattern isDir
      = (path == dropLeading '/' (dropTrailing '/' pattern)
          || listIsPrefixB (dropLeading '/' (dropTrailing '/' pattern) ++ ['/']) path) := by
  obtain ⟨cl, hcl⟩ : ∃ cl, dropTrailing '/' pattern = '/' :: cl := by
    cases hc : dropTrailing '/' pattern with
    | nil => rw [hc] at hanch; simp [listIsPrefixB] at hanch
    | cons x xs =>
        rw [hc] at hanch
        simp only [listIsPrefixB, Bool.and_eq_true, beq_iff_eq] at hanch
        exact ⟨xs, by rw [hanch.1]⟩
  have e1 : (path == dropTrailing '/' pattern) = false := by
    cases hx : (path == dropTrailing '/' pattern) with
    | false => rfl
    | true =>
        exfalso
        have hpe : path = dropTrailing '/' pattern := beq_iff_eq.mp hx
        rw [hpe, hcl] at hp1
        simp [listIsPrefixB] at hp1
  have e2 : listIsPrefixB (dropTrailing '/' pattern ++ ['/']) path = false := by
    cases hx : listIsPrefixB (dropTrailing '/' pattern ++ ['/']) path with
    | false => rfl
    | true =>
        exfalso
        rw [hcl] at hx
        have hh := prefixB_head '/' (cl ++ ['/']) path (by simpa using hx)
        rw [hh] at hp1
        simp at hp1
  have e3 : listIsSuffixB ('/' :: dropTrailing '/' pattern) path = false := by
    cases hx : listIsSuffixB ('/' :: dropTrailing '/' pattern) path with
    | false => rfl
    | true =>
        exfalso
        rw [hcl] at hx
        have hsuf : ('/' :: '/' :: cl) <:+ path := (listIsSuffixB_iff _ _).mp hx
        have hpre : (['/', '/'] : Str) <+: ('/' :: '/' :: cl) := ⟨cl, rfl⟩
        have hinf : (['/', '/'] : Str) <:+: path := hpre.isInfix.trans hsuf.isInfix
        have hss := (strContainsSub_iff path ['/', '/']).mpr hinf
        rw [hss] at hp2
        simp at hp2
  simp only [matchesGitignorePattern]
  rw [hgate, hnostar, e1, e2, e3]
  simp only [Bool.not_false, Bool.true_and, Bool.or_self, Bool.or_false, Bool.false_or,
    Bool.false_eq_true, if_false]
  simp only [anchoredOrContains, hanch, if_true]

theorem anchored_no_wildcard_prefix_semantics_witness :
    matchesGitignorePattern (String.toList "dist/main.js") (String.toList "/dist") false
      = (String.toList "dist/main.js"
            == dropLeading '/' (dropTrailing '/' (String.toList "/dist"))
          || listIsPrefixB
              (dropLeading '/' (dropTrailing '/' (String.toList "/dist")) ++ ['/'])
              (String.toList "dist/main.js"))
  ∧ matchesGitignorePattern (String.toList "dist/main.js") (String.toList "/dist") false
      = true
  ∧ matchesGitignorePattern (String.toList "src/dist/main.js") (String.toList "/dist") false
      = false :=
  ⟨anchored_no_wildcard_prefix_semantics (String.toList "dist/main.js")
      (String.toList "/dist") false (by decide) (by decide) (by decide) (by decide)
      (by decide),
   by decide, by decide⟩

theorem ignoreLoop_fst (path : Str) (isDir : Bool) (pats : List Str) :
    ∀ mn si, (ignoreLoop path isDir pats mn si).1
      = (mn || pats.any (matchesNegatedRule path isDir)) := by
  induction pats with
  | nil => intro mn si; simp [ignoreLoop]
  | cons pat rest ih =>
      intro mn si
      simp only [ignoreLoop, List.any_cons, matchesNegatedRule]
      cases hneg : listIsPrefixB ['!'] pat with
      | true =>
          cases hm : matchesGitignorePattern path (pat.drop 1) isDir with
          | true => simp [hneg, hm, ih]
          | false => simp [hneg, hm, ih]
      | false =>
          cases hm2 : (!mn && matchesGitignorePattern path pat isDir) with
          | true => simp [hneg, hm2, ih]
          | false => simp [hneg, hm2, ih]

theorem ignoreLoop_snd (path : Str) (isDir : Bool) (pats : List Str)
    (hno : pats.any (matchesNegatedRule path isDir) = false) :
    ∀ si, (ignoreLoop path isDir pats false si).2
      = (si || pats.any (matchesPlainRule path isDir)) := by
  induction pats with
  | nil => intro si; simp [ignoreLoop]
  | cons pat rest ih =>
      intro si
      simp only [List.any_cons, Bool.or_eq_false_iff, matchesNegatedRule] at hno
      simp only [ignoreLoop, List.any_cons, matchesPlainRule]
      cases hneg : listIsPrefixB ['!'] pat with
      | true =>
          have hm : matchesGitignorePattern path (pat.drop 1) isDir = false := by
            have := hno.1
            rw [hneg] at this
            simpa using this
          simp only [hneg, if_true, hm, Bool.false_eq_true, if_false]
          rw [ih hno.2 si]
          simp
      | false =>
          cases hm : matchesGitignorePattern path pat isDir with
          | true =>
              simp only [hneg, Bool.false_eq_true, if_false, Bool.not_false, Bool.true_and,
                hm, if_true]
              rw [ih hno.2 true]
              simp
          | false =>
              simp only [hneg, Bool.false_eq_true, if_false, Bool.not_false, Bool.true_and,
                hm, if_false]
              rw [ih hno.2 si]
              simp

theorem perm_any_eq {α : Type} {l l2 : List α} (h : l.Perm l2) (f : α → Bool) :
    l.any f = l2.any f := by
  rw [Bool.eq_iff_iff, List.any_eq_true, List.any_eq_true]
  constructor
  · rintro ⟨x, hx, hfx⟩; exact ⟨x, h.mem_iff.mp hx, hfx⟩
  · rintro ⟨x, hx, hfx⟩; exact ⟨x, h.mem_iff.mpr hx, hfx⟩

/-- **C4.** `should_ignore` equals: no negated rule's underlying pattern
matches (else `false` unconditionally), and some non-negated rule matches;
in particular the empty rule set yields `false`, and the result is invariant
under any permutation of the rule set (iteration order–independence). -/
theorem should_ignore_negation_override (path root : Str) (isDir : Bool)
    (pats pats2 : List Str) (hperm : pats.Perm pats2) :
    shouldIgnoreByGitignore path root pats isDir
      = (!(pats.any (matchesNegatedRule (relTo root path) isDir))
          && pats.any (matchesPlainRule (relTo root path) isDir))
  ∧ shouldIgnoreByGitignore path root pats isDir
      = shouldIgnoreByGitignore path root pats2 isDir := by
  have char : ∀ ps : List Str,
      shouldIgnoreByGitignore path root ps isDir
        = (!(ps.any (matchesNegatedRule (relTo root path) isDir))
            && ps.any (matchesPlainRule (relTo root path) isDir)) := by
    intro ps
    cases ps with
    | nil => simp [shouldIgnoreByGitignore]
    | cons p rest =>
        simp only [shouldIgnoreByGitignore, List.isEmpty_cons, Bool.false_eq_true, if_false]
        have hfst := ignoreLoop_fst (relTo root path) isDir (p :: rest) false false
        cases hany : (p :: rest).any (matchesNegatedRule (relTo root path) isDir) with
        | true =>
            rw [hany] at hfst
            simp only [Bool.false_or] at hfst
            simp [hfst]
        | false =>
            rw [hany] at hfst
            simp only [Bool.false_or] at hfst
            have hsnd := ignoreLoop_snd (relTo root path) isDir (p :: rest) hany false
            simp [hfst, hsnd, hany]
  refine ⟨char pats, ?_⟩
  rw [char pats, char pats2,
    perm_any_eq hperm (matchesNegatedRule (relTo root path) isDir),
    perm_any_eq hperm (matchesPlainRule (relTo root path) isDir)]

theorem should_ignore_negation_override_witness :
    shouldIgnoreByGitignore (String.toList "/test/logs/important.log")
        (String.toList "/test") [String.toList "*.log", String.toList "!important.log"] false
      = shouldIgnoreByGitignore (String.toList "/test/logs/important.log")
        (String.toList "/test") [String.toList "!important.log", String.toList "*.log"] false
  ∧ shouldIgnoreByGitignore (String.toList "/test/logs/important.log")
        (String.toList "/test") [String.toList "*.log", String.toList "!important.log"] false
      = false
  ∧ shouldIgnoreByGitignore (String.toList "/test/logs/other.log")
        (String.toList "/test") [String.toList "*.log", String.toList "!important.log"] false
      = true
  ∧ shouldIgnoreByGitignore (String.toList "/test/anything") (String.toList "/test") [] false
      = false :=
  ⟨(should_ignore_negation_override (String.toList "/test/logs/important.log")
      (String.toList "/test") false
      [String.toList "*.log", String.toList "!important.log"]
      [String.toList "!important.log", String.toList "*.log"]
      (List.Perm.swap (String.toList "!important.log") (String.toList "*.log") [])).2,
   by decide, by decide, by decide⟩

/-! ## Directory walk and discovery (`src/infra/file_system.rs`)

The filesystem subtree under the root is modelled as `FSTree`; `walkdir`'s
iterator with `filter_entry` becomes `walkF`: the predicate is evaluated on
every entry, and a directory failing it is not descended into.  A missing
root is a walk stream consisting of a single `Err` item, which the Rust
pipeline drops via `filter_map(Result::ok)`.  For symlink entries the
`is_dir` argument passed to the predicate is `false` (the source calls
`path.is_dir()`; a symlink pointing to a directory is outside this model). -/

inductive EntryType where
  | file | dir | symlink
  deriving DecidableEq

inductive FSTree where
  | file (name : Str)
  | symlink (name : Str)
  | dir (name : Str) (children : List FSTree)

def FSTree.name : FSTree → Str
  | .file n => n
  | .symlink n => n
  | .dir n _ => n

/-- Full path of a child named `n` under the entry with full path `pre`. -/
def childPath (pre : Str) (n : Str) : Str := pre ++ '/' :: n

mutual

/-- The filtered walk: `p` is the entry's full path (the node's own name is
ignored at the root, as `WalkDir::new(root)` names the root itself). -/
def walkF (pred : Str → Bool → Bool) (p : Str) : FSTree → List (Str × EntryType)
  | .file _ => if pred p false then [(p, .file)] else []
  | .symlink _ => if pred p false then [(p, .symlink)] else []
  | .dir _ cs => if pred p true then (p, .dir) :: walkChildren pred p cs else []

def walkChildren (pred : Str → Bool → Bool) (p : Str) : List FSTree → List (Str × EntryType)
  | [] => []
  | c :: rest => walkF pred (childPath p c.name) c ++ walkChildren pred p rest

end

/-- `q` is the full path of a `file` node of the tree rooted at full path
`p`, every ancestor directory (the root included) passing the filter
predicate and the file itself passing it too: the declarative,
order-independent notion of "a regular file that was not pruned". -/
inductive FileVisible (pred : Str → Bool → Bool) : Str → FSTree → Str → Prop where
  | file : ∀ (p : Str) (n : Str), pred p false = true → FileVisible pred p (.file n) p
  | dir : ∀ (p : Str) (n : Str) (cs : List FSTree) (c : FSTree) (q : Str),
      pred p true = true → c ∈ cs →
      FileVisible pred (childPath p c.name) c q →
      FileVisible pred p (.dir n cs) q

inductive WalkItem where
  | ok (path : Str) (ty : EntryType)
  | err

/-- The stream `WalkDir::new(root)` hands to the pipeline: a single error
item when the root does not exist (or is otherwise unreadable), else the
filtered walk of the subtree. -/
def walkItems (rootFS : Option FSTree) (pred : Str → Bool → Bool) (rootPath : Str) :
    List WalkItem :=
  match rootFS with
  | none => [.err]
  | some t => (walkF pred rootPath t).map fun e => .ok e.1 e.2

/-- `filter_map(Result::ok)`: keep the `Ok` entries, silently dropping
every error item. -/
def okEntries (items : List WalkItem) : List (Str × EntryType) :=
  items.filterMap fun it =>
    match it with
    | .ok p ty => some (p, ty)
    | .err => none

/-- `entry.file_type().is_dir() || entry.file_type().is_symlink()`. -/
def isSkippedType : EntryType → Bool
  | .dir => true
  | .symlink => true
  | .file => false

/-- `Path::file_name` on a slash-joined path. -/
def fileName (path : Str) : Str := (splitChar '/' path).getLastD []

/-- `Path::extension`: the part of the file name after the last `.`;
`none` when there is no `.`, or when the only `.` is the leading one of a
hidden file. -/
def extensionOf (path : Str) : Option Str :=
  match splitChar '.' (fileName path) with
  | [] => none
  | [_] => none
  | p0 :: rest => if p0.isEmpty && rest.length == 1 then none else some (rest.getLastD [])

/-- The extension allow-list test: empty list accepts everything, else the
extension must exist and equal some allow-list entry with its leading dots
stripped (`ext.trim_start_matches('.') == e`). -/
def extMatches (extensions : List Str) (path : Str) : Bool :=
  if extensions.isEmpty then true
  else
    match extensionOf path with
    | some e => extensions.any fun ext => dropLeading '.' ext == e
    | none => false

/-- The per-entry body of the `list_code_files_with_gitignore` loop:
skip directories and symlinks, keep paths passing the extension test. -/
def processEntries (extensions : List Str) (entries : List (Str × EntryType)) : List Str :=
  (entries.filter fun e => !isSkippedType e.2).filterMap
    fun e => if extMatches extensions e.1 then some e.1 else none

/-- The per-entry body of the plain `list_code_files` loop, which also
re-checks the exclude substrings (redundantly with `filter_entry`). -/
def processEntriesPlain (extensions excludePatterns : List Str)
    (entries : List (Str × EntryType)) : List Str :=
  (entries.filter fun e => !isSkippedType e.2).filterMap fun e =>
    let excluded := !excludePatterns.isEmpty
        && excludePatterns.any fun pat => strContainsSub e.1 pat
    if extMatches extensions e.1 && !excluded then some e.1 else none

/-- The `filter_entry` predicate of `list_code_files`. -/
def plainPred (excludePatterns : List Str) (p : Str) (_ : Bool) : Bool :=
  excludePatterns.isEmpty || !(excludePatterns.any fun pat => strContainsSub p pat)

/-- `list_code_files(root, extensions, exclude_patterns)`; the root is
`none` when it does not exist.  The result type records that the Rust
function returns `anyhow::Result`. -/
def list_code_files (rootFS : Option FSTree) (rootPath : Str)
    (extensions excludePatterns : List Str) : Except String (List Str) :=
  Except.ok (processEntriesPlain extensions excludePatterns
    (okEntries (walkItems rootFS (plainPred excludePatterns) rootPath)))

/-- `all_exclude_patterns`: user excludes plus the version-control
directory name when non-empty. -/
def allExcludePatterns (excludePatterns : List Str) (vcsDir : Str) : List Str :=
  excludePatterns ++ (if vcsDir.isEmpty then [] else [vcsDir])

/-- The `filter_entry` predicate of `list_code_files_with_gitignore`:
exclude-substring pruning and (when enabled) the gitignore check. -/
def discoveryPred (allExcl : List Str) (applyGitignore : Bool) (pats : List Str)
    (rootPath : Str) (p : Str) (isDir : Bool) : Bool :=
  (allExcl.isEmpty || !(allExcl.any fun pat => strContainsSub p pat))
    && (if applyGitignore then !(shouldIgnoreByGitignore p rootPath pats isDir) else true)

/-- The path list `list_code_files_with_gitignore` builds.
`gitignorePatterns` stands for the parse of the root's ignore file (the
parse itself is filesystem I/O); when the flag is off the set is empty. -/
def discoveredFiles (rootFS : Option FSTree) (rootPath : Str)
    (extensions excludePatterns : List Str) (vcsDir : Str)
    (applyGitignore : Bool) (gitignorePatterns : List Str) : List Str :=
  processEntries extensions
    (okEntries (walkItems rootFS
      (discoveryPred (allExcludePatterns excludePatterns vcsDir) applyGitignore
        (if applyGitignore then gitignorePatterns else []) rootPath)
      rootPath))

/-- `list_code_files_with_gitignore(...)`. -/
def list_code_files_with_gitignore (rootFS : Option FSTree) (rootPath : Str)
    (extensions excludePatterns : List Str) (vcsDir : Str)
    (applyGitignore : Bool) (gitignorePatterns : List Str) : Except String (List Str) :=
  Except.ok (discoveredFiles rootFS rootPath extensions excludePatterns vcsDir
    applyGitignore gitignorePatterns)

mutual

theorem walkF_file_mem (pred : Str → Bool → Bool) (p : Str) (t : FSTree) (q : Str) :
    (q, EntryType.file) ∈ walkF pred p t ↔ FileVisible pred p t q := by
  cases t with
  | file n =>
      cases hp : pred p false with
      | true =>
          simp only [walkF, hp, if_true, List.mem_singleton]
          constructor
          · intro h
            have hq : q = p := congrArg Prod.fst h
            subst hq
            exact FileVisible.file q n hp
          · intro h
            cases h with
            | file _ _ _ => rfl
      | false =>
          simp only [walkF, hp, Bool.false_eq_true, if_false, List.not_mem_nil, false_iff]
          intro h
          cases h with
          | file _ _ hpred => rw [hp] at hpred; simp at hpred
  | symlink n =>
      cases hp : pred p false with
      | true =>
          simp only [walkF, hp, if_true, List.mem_singleton]
          constructor
          · intro h
            have hty := congrArg Prod.snd h
            simp at hty
          · intro h
            cases h
      | false =>
          simp only [walkF, hp, Bool.false_eq_true, if_false, List.not_mem_nil, false_iff]
          intro h
          cases h
  | dir n cs =>
      cases hp : pred p true with
      | true =>
          simp only [walkF, hp, if_true, List.mem_cons]
          rw [walkChildren_file_mem pred p cs q]
          constructor
          · rintro (h | ⟨c, hc, hvis⟩)
            · have hty := congrArg Prod.snd h
              simp at hty
            · exact FileVisible.dir p n cs c q hp hc hvis
          · intro h
            cases h with
            | dir _ _ _ c _ hp2 hc hvis => exact Or.inr ⟨c, hc, hvis⟩
      | false =>
          simp only [walkF, hp, Bool.false_eq_true, if_false, List.not_mem_nil, false_iff]
          intro h
          cases h with
          | dir _ _ _ c _ hp2 hc hvis => rw [hp] at hp2; simp at hp2

theorem walkChildren_file_mem (pred : Str → Bool → Bool) (p : Str) (cs : List FSTree)
    (q : Str) :
    (q, EntryType.file) ∈ walkChildren pred p cs
      ↔ ∃ c ∈ cs, FileVisible pred (childPath p c.name) c q := by
  cases cs with
  | nil => simp [walkChildren]
  | cons c rest =>
      simp only [walkChildren, List.mem_append, List.mem_cons]
      rw [walkF_file_mem pred (childPath p c.name) c q,
        walkChildren_file_mem pred p rest q]
      constructor
      · rintro (h | ⟨c2, hc2, hvis⟩)
        · exact ⟨c, Or.inl rfl, h⟩
        · exact ⟨c2, Or.inr hc2, hvis⟩
      · rintro ⟨c2, hc2 | hc2, hvis⟩
        · subst hc2; exact Or.inl hvis
        · exact Or.inr ⟨c2, hc2, hvis⟩

end

theorem okEntries_map_ok (l : List (Str × EntryType)) :
    okEntries (l.map fun e => .ok e.1 e.2) = l := by
  induction l with
  | nil => rfl
  | cons hd tl ih =>
      simp only [List.map_cons, okEntries, List.filterMap_cons] at ih ⊢
      simpa using ih

theorem mem_discoveredFiles (t : FSTree) (rootPath : Str) (exts excl : List Str)
    (vcs : Str) (applyGi : Bool) (gipats : List Str) (q : Str) :
    q ∈ discoveredFiles (some t) rootPath exts excl vcs applyGi gipats
      ↔ FileVisible (discoveryPred (allExcludePatterns excl vcs) applyGi
            (if applyGi then gipats else []) rootPath) rootPath t q
        ∧ extMatches exts q = true := by
  simp only [discoveredFiles, walkItems, okEntries_map_ok, processEntries]
  rw [List.mem_filterMap]
  constructor
  · rintro ⟨e, he, hsome⟩
    rw [List.mem_filter] at he
    obtain ⟨hmem, hskip⟩ := he
    obtain ⟨ep, ety⟩ := e
    cases ety with
    | dir => simp [isSkippedType] at hskip
    | symlink => simp [isSkippedType] at hskip
    | file =>
        cases hext : extMatches exts ep with
        | false => rw [hext] at hsome; simp at hsome
        | true =>
            rw [hext] at hsome
            simp only [if_true, Option.some.injEq] at hsome
            subst hsome
            exact ⟨(walkF_file_mem _ _ _ _).mp hmem, hext⟩
  · rintro ⟨hvis, hext⟩
    refine ⟨(q, EntryType.file), ?_, ?_⟩
    · rw [List.mem_filter]
      exact ⟨(walkF_file_mem _ _ _ _).mpr hvis, by simp [isSkippedType]⟩
    · simp [hext]

/-- The spec's §8 discovery example: files `a.rs`, `b.py`, `c.rs` under the
root. -/
def exampleFS : FSTree :=
  .dir [] [.file (String.toList "a.rs"), .file (String.toList "b.py"),
    .file (String.toList "c.rs")]

/-- The same tree with the children visited in the opposite order. -/
def exampleFSRev : FSTree :=
  .dir [] [.file (String.toList "c.rs"), .file (String.toList "b.py"),
    .file (String.toList "a.rs")]

/-- **C8.** Discovery output characterised: `list_code_files_with_gitignore`
succeeds with exactly the paths `q` such that `q` is a regular `file` entry
of the walked tree, no ancestor (nor the file itself) was pruned by the
filter predicate (`FileVisible` — directories and symlinks are never
emitted), and the extension test passes; under a non-empty allow-list every
emitted path's extension (component after the last `.`) is an allow-list
member with its leading dot stripped.  Membership is stated against the
order-free predicate `FileVisible`, so the result is correct as a set
independent of visitation order; the two orderings of the §8 example yield
the same two paths. -/
theorem discovery_emits_exactly_unpruned_matching_files :
    (∀ rootFS rootPath exts excl vcs applyGi gipats,
        list_code_files_with_gitignore rootFS rootPath exts excl vcs applyGi gipats
          = .ok (discoveredFiles rootFS rootPath exts excl vcs applyGi gipats))
  ∧ (∀ t rootPath exts excl vcs applyGi gipats q,
        q ∈ discoveredFiles (some t) rootPath exts excl vcs applyGi gipats
          ↔ FileVisible (discoveryPred (allExcludePatterns excl vcs) applyGi
                (if applyGi then gipats else []) rootPath) rootPath t q
            ∧ extMatches exts q = true)
  ∧ (∀ t rootPath exts excl vcs applyGi gipats q,
        q ∈ discoveredFiles (some t) rootPath exts excl vcs applyGi gipats →
        exts ≠ [] →
        ∃ e, extensionOf q = some e
          ∧ (exts.any fun x => dropLeading '.' x == e) = true)
  ∧ discoveredFiles (some exampleFS) (String.toList "root") [String.toList "rs"]
      [] [] false []
      = [String.toList "root/a.rs", String.toList "root/c.rs"]
  ∧ discoveredFiles (some exampleFSRev) (String.toList "root") [String.toList "rs"]
      [] [] false []
      = [String.toList "root/c.rs", String.toList "root/a.rs"] := by
  refine ⟨fun _ _ _ _ _ _ _ => rfl, mem_discoveredFiles, ?_, by decide, by decide⟩
  intro t rootPath exts excl vcs applyGi gipats q hq hne
  have hext := ((mem_discoveredFiles t rootPath exts excl vcs applyGi gipats q).mp hq).2
  have hemp : exts.isEmpty = false := by
    cases exts with
    | nil => exact absurd rfl hne
    | cons a b => rfl
  rw [extMatches, hemp] at hext
  simp only [Bool.false_eq_true, if_false] at hext
  cases hcase : extensionOf q with
  | none => rw [hcase] at hext; simp at hext
  | some e =>
      rw [hcase] at hext
      exact ⟨e, rfl, hext⟩

theorem discovery_emits_exactly_unpruned_matching_files_witness :
    (String.toList "root/a.rs")
        ∈ discoveredFiles (some exampleFS) (String.toList "root")
            [String.toList "rs"] [] [] false []
  ∧ ∃ e, extensionOf (String.toList "root/a.rs") = some e
      ∧ (([String.toList "rs"]).any fun x => dropLeading '.' x == e) = true :=
  ⟨by decide,
   discovery_emits_exactly_unpruned_matching_files.2.2.1 exampleFS
      (String.toList "root") [String.toList "rs"] [] [] false []
      (String.toList "root/a.rs") (by decide) (by simp)⟩

/-- **C3, counterexample.** The claim says a missing root is reported as a
discovery-level error and not returned as a successful empty result.  Both
discovery functions in fact return `Ok([])` on a missing root: the walk's
single root-level `Err` item is dropped by the same `filter_map(Result::ok)`
that skips per-entry errors. -/
theorem missing_root_returns_ok_empty_cex :
    list_code_files none (String.toList "/missing") [String.toList "rs"] [] = .ok []
  ∧ list_code_files_with_gitignore none (String.toList "/missing") [String.toList "rs"]
      [] (String.toList ".git") true [String.toList "*.log"] = .ok [] :=
  ⟨rfl, rfl⟩

/-- **C3, amended.** Discovery never reports a discovery-level error: both
functions always return `Ok`.  On a missing root they return the successful
empty result `Ok([])` — the walk's root-level `Err` item is dropped by the
same `filter_map(Result::ok)` that silently skips every per-entry traversal
error.  A root that exists but is a regular file produces no walk error at
all: the walk yields the root itself as an ordinary entry, and (with no
filters) discovery returns the successful non-empty result `Ok([root])`. -/
theorem discovery_errors_silently_skipped (rootFS : Option FSTree) (rootPath : Str)
    (exts excl : List Str) (vcs : Str) (applyGi : Bool) (gipats : List Str)
    (items : List WalkItem) :
    (∃ l, list_code_files rootFS rootPath exts excl = .ok l)
  ∧ (∃ l, list_code_files_with_gitignore rootFS rootPath exts excl vcs applyGi gipats
      = .ok l)
  ∧ (rootFS = none →
      list_code_files rootFS rootPath exts excl = .ok []
      ∧ list_code_files_with_gitignore rootFS rootPath exts excl vcs applyGi gipats
          = .ok [])
  ∧ (∀ n : Str,
      list_code_files (some (.file n)) rootPath [] [] = .ok [rootPath]
      ∧ list_code_files_with_gitignore (some (.file n)) rootPath [] [] [] false []
          = .ok [rootPath])
  ∧ okEntries (items.filter fun it =>
        match it with
        | .err => false
        | .ok _ _ => true)
      = okEntries items := by
  refine ⟨⟨_, rfl⟩, ⟨_, rfl⟩, ?_, fun n => ⟨rfl, rfl⟩, ?_⟩
  · rintro rfl
    exact ⟨rfl, rfl⟩
  · induction items with
    | nil => rfl
    | cons hd tl ih =>
        cases hd with
        | ok p ty =>
            simp only [List.filter_cons, okEntries, List.filterMap_cons] at ih ⊢
            simpa using ih
        | err =>
            simp only [List.filter_cons, okEntries, List.filterMap_cons] at ih ⊢
            simpa using ih

theorem discovery_errors_silently_skipped_witness :
    (list_code_files none (String.toList "/gone") [] [] = .ok ([] : List Str)
      ∧ list_code_files_with_gitignore none (String.toList "/gone") [] [] [] false []
          = .ok ([] : List Str))
  ∧ list_code_files (some (.file (String.toList "gone")))
      (String.toList "/gone") [] [] = .ok [String.toList "/gone"] :=
  ⟨(discovery_errors_silently_skipped none (String.toList "/gone") [] [] [] false []
      []).2.2.1 rfl,
   ((discovery_errors_silently_skipped (some (.file (String.toList "gone")))
      (String.toList "/gone") [] [] [] false [] []).2.2.2.1
      (String.toList "gone")).1⟩
